import Mathlib

/-!
Shallow embedding of `Lib/sandbox/models/formula.py`: the Term/Factor/Formula
algebra for building regression design matrices, with lazy evaluation against
a namespace of raw arrays.  The floats appearing in the modelled fragment are
exact small integers (0/1 indicators and their sums, differences and
products), so numeric array entries are modelled as `Int`.  Python 2 string
comparison is byte-wise comparison of the character codes.
-/

namespace FormulaPy

set_option linter.unusedVariables false

/-- Python exception kinds raised by the modelled code paths. -/
inductive PyErr where
  | keyError : PyErr
  | valueError : PyErr
  | typeError : PyErr
  | indexError : PyErr
  | nameError : String → PyErr
  deriving DecidableEq, Repr

/-- An array as produced by `N.asarray` / `N.squeeze` in the source: 0-, 1- or
2-dimensional, with numeric or string entries (raw factor levels are strings). -/
inductive NPArr where
  | i0 : Int → NPArr
  | i1 : List Int → NPArr
  | i2 : List (List Int) → NPArr
  | s0 : String → NPArr
  | s1 : List String → NPArr
  | s2 : List (List String) → NPArr
  deriving DecidableEq, Repr

/-- Number of axes of an array. -/
def NPArr.ndim : NPArr → Nat
  | .i0 _ => 0
  | .s0 _ => 0
  | .i1 _ => 1
  | .s1 _ => 1
  | .i2 _ => 2
  | .s2 _ => 2

/-- Squeeze of a 1-dimensional array: a one-element vector becomes a scalar. -/
def squeeze1 : NPArr → NPArr
  | .i1 l => if l.length = 1 then .i0 (l.headD 0) else .i1 l
  | .s1 l => if l.length = 1 then .s0 (l.headD "") else .s1 l
  | v => v

/-- `N.squeeze`: remove all axes of size one.  `(1,n) → (n,)`, `(k,1) → (k,)`,
`(1,1) → ()`, `(n,) → ()` when `n = 1`. -/
def squeeze : NPArr → NPArr
  | .i2 rows =>
      if rows.length = 1 then squeeze1 (.i1 (rows.headD []))
      else if rows.all (fun r => r.length = 1) then squeeze1 (.i1 (rows.map (fun r => r.headD 0)))
      else .i2 rows
  | .s2 rows =>
      if rows.length = 1 then squeeze1 (.s1 (rows.headD []))
      else if rows.all (fun r => r.length = 1) then squeeze1 (.s1 (rows.map (fun r => r.headD "")))
      else .s2 rows
  | .i1 l => squeeze1 (.i1 l)
  | .s1 l => squeeze1 (.s1 l)
  | v => v

/-- Python `len` of an array: the size of the first axis; raises `TypeError`
on a 0-dimensional array. -/
def pyLen : NPArr → Except PyErr Nat
  | .i1 l => .ok l.length
  | .s1 l => .ok l.length
  | .i2 l => .ok l.length
  | .s2 l => .ok l.length
  | _ => .error .typeError

/-- A Term's `name` attribute: either one string or a list of strings. -/
inductive PyName where
  | str : String → PyName
  | strs : List String → PyName
  deriving DecidableEq, Repr

/-- Byte-wise `<=` on character lists, as Python 2 compares strings. -/
def charListLe : List Char → List Char → Bool
  | [], _ => true
  | _ :: _, [] => false
  | a :: as, b :: bs =>
    if a.toNat < b.toNat then true
    else if b.toNat < a.toNat then false
    else charListLe as bs

/-- Python 2 string comparison `a <= b`. -/
def pyStrLe (a b : String) : Bool := charListLe a.toList b.toList

/-- Stable ordered insert for the string sort. -/
def insertStr (x : String) : List String → List String
  | [] => [x]
  | y :: ys => if pyStrLe x y then x :: y :: ys else y :: insertStr x ys

/-- Python's `list.sort()` on a list of strings (insertion sort; any stable
sort computes the same list). -/
def pySortStrings (l : List String) : List String := l.foldr insertStr []

/-- `list(set(keys))` followed by `.sort()` in `Factor.__init__`: the
deduplicated keys in ascending order. -/
def pySortedKeys (keys : List String) : List String := pySortStrings keys.dedup

/-- Python 2 `<=` on lists of strings: lexicographic, comparing elements with
string `==` and `<`. -/
def strListLe : List String → List String → Bool
  | [], _ => true
  | _ :: _, [] => false
  | a :: as, b :: bs => if a = b then strListLe as bs else pyStrLe a b

/-- Python 2 `<=` on `name` attributes.  Comparing a list with a string falls
back to comparing the type names, and `'list' < 'str'`. -/
def PyName.le : PyName → PyName → Bool
  | .strs _, .str _ => true
  | .str _, .strs _ => false
  | .str a, .str b => pyStrLe a b
  | .strs a, .strs b => strListLe a b

/-- A namespace maps variable names to raw arrays.  (The source also lets a
namespace entry be a `Formula` or a callable; the namespaces appearing in this
development hold raw data only.) -/
abbrev Namespace := List (String × NPArr)

/-- A named term of a model formula.  `func` is the optional attached
evaluator; `oid` models the Python object identity used as the final
tie-breaker when formula addition sorts `(name, term)` pairs. -/
structure Term where
  name : PyName
  termname : String
  func : Option (Namespace → Int → Except PyErr NPArr) := none
  oid : Nat := 0

/-- `Term.names`: the `name` attribute as a list of column labels. -/
def Term.names (t : Term) : List String :=
  match t.name with
  | .str s => [s]
  | .strs l => l

/-- Dictionary lookup `namespace[k]`. -/
def nsLookup (ns : Namespace) (k : String) : Option NPArr := List.lookup k ns

/-- `Term.__call__` with `usefn=True` (the default): invoke the attached
evaluator if there is one, otherwise resolve `namespace[termname]`; the result
is coerced to an array and squeezed.  The sole keyword argument threaded
through `**extra` in this development is `nrow` (used by the intercept). -/
def Term.call (t : Term) (ns : Namespace) (nrow : Int := 1) : Except PyErr NPArr :=
  match t.func with
  | some f => do
      let v ← f ns nrow
      pure (squeeze v)
  | none =>
      match nsLookup ns t.termname with
      | some v => .ok (squeeze v)
      | none => .error .keyError

/-- `Term.__call__` with `usefn=False`, the path taken by
`Factor.__call__(values=True)`: resolve `namespace[termname]` directly,
coerce to an array and squeeze. -/
def Term.callValues (t : Term) (ns : Namespace) : Except PyErr NPArr :=
  match nsLookup ns t.termname with
  | some v => .ok (squeeze v)
  | none => .error .keyError

/-- One indicator row of a non-ordinal factor: `float(v[i] == key)`. -/
def indicatorRow (v : List String) (key : String) : List Int :=
  v.map fun x => if x = key then 1 else 0

/-- The evaluator closure of a non-ordinal `Factor`: one indicator row per
key.  When the namespace value is not a vector of strings, Python 2's
cross-type `==` yields `False` at every entry, producing all-zero rows (and
`len` of a 0-dimensional value raises `TypeError`). -/
def factorFunc (tname : String) (keys : List String) : Namespace → Int → Except PyErr NPArr :=
  fun ns _ =>
    match nsLookup ns tname with
    | none => .error .keyError
    | some (.s1 v) => .ok (.i2 (keys.map (indicatorRow v)))
    | some w => do
        let n ← pyLen w
        .ok (.i2 (keys.map fun _ => List.replicate n (0 : Int)))

/-- The per-level column labels `(termname==key)` of a non-ordinal factor. -/
def factorLabels (tname : String) (keys : List String) : List String :=
  keys.map fun key => "(" ++ tname ++ "==" ++ key ++ ")"

/-- `Factor.__init__` with `ordinal=False`: sort the deduplicated keys, label
one column per key, and attach the indicator-matrix evaluator. -/
def Factor.mk (tname : String) (keys : List String) (oid : Nat := 0) : Term :=
  let sk := pySortedKeys keys
  { name := .strs (factorLabels tname sk),
    termname := tname,
    func := some (factorFunc tname sk),
    oid := oid }

/-- Local names bound in the scope of `Factor.__init__` at the point where
the ordinal branch executes `def func(namespace=terms, key=key)`; a default
argument is evaluated immediately, in this enclosing scope, and `key` is not
among the bound names. -/
def ordinalBranchScope : List String := ["self", "termname", "keys", "ordinal"]

/-- Python name resolution in a given scope: raises `NameError` when the name
is unbound. -/
def pyLookupName (scope : List String) (n : String) : Except PyErr Unit :=
  if n ∈ scope then .ok () else .error (.nameError n)

/-- `Factor.__init__` with `ordinal=True`.  Evaluating the inner function's
default argument `key=key` looks up `key`, which is bound nowhere in the
enclosing scope, so the construction raises `NameError` before a term is
built.  (Were that repaired, `Term.__init__(self, self.name, ...)` reads the
not-yet-assigned attribute `self.name`, and the evaluator body uses an
undefined `n` — the source's own FIXME — so the continuation kept below still
fails on every evaluation.) -/
def Factor.mkOrdinal (tname : String) (keys : List String) : Except PyErr Term := do
  let _ ← pyLookupName ordinalBranchScope "key"
  .ok { name := .str tname, termname := tname,
        func := some fun ns _ => do
          let _ ← match nsLookup ns tname with
                  | some v => Except.ok v
                  | none => Except.error PyErr.keyError
          Except.error (.nameError "n") }

/-- Elementwise binary operation on two 1-dimensional arrays with length-1
broadcasting, as the array library applies `*` and `-` row-wise. -/
def broadcastOp (f : Int → Int → Int) (a b : List Int) : Except PyErr (List Int) :=
  if a.length = b.length then .ok (List.zipWith f a b)
  else if a.length = 1 then .ok (b.map (f (a.headD 0)))
  else if b.length = 1 then .ok (a.map (fun x => f x (b.headD 0)))
  else .error .valueError

/-- The evaluator closure built by `Factor.main_effect`: evaluate the factor,
drop the reference row, and subtract it from each remaining row. -/
def mainEffectFunc (tname : String) (keys : List String) (reference : Nat) :
    Namespace → Int → Except PyErr NPArr :=
  fun ns nr => do
    let value ← Term.call (Factor.mk tname keys) ns nr
    match value with
    | .i2 rows =>
        if reference < rows.length then do
          let refRow := rows.getD reference []
          let keep := (List.range rows.length).eraseIdx reference
          let rvalue ← keep.mapM fun i => broadcastOp (fun x y => x - y) (rows.getD i []) refRow
          .ok (.i2 rvalue)
        else .error .indexError
    | .i1 l =>
        if reference < l.length then
          let r := l.getD reference 0
          .ok (.i1 (((List.range l.length).eraseIdx reference).map fun i => l.getD i 0 - r))
        else .error .indexError
    | _ => .error .indexError

/-- `Factor.main_effect(reference)`: a new `Term` with one column per
non-reference level, labelled `level-referencelevel`; `reference` defaults to
index 0 of the sorted key list and an out-of-range index raises `IndexError`
when `keep.pop(reference)` runs at construction time. -/
def mainEffect (tname : String) (keys : List String) (reference? : Option Nat := none) :
    Except PyErr Term :=
  let reference := reference?.getD 0
  let ns0 := (Factor.mk tname keys).names
  if reference < ns0.length then
    let keep := (List.range ns0.length).eraseIdx reference
    .ok { name := .strs (keep.map fun i => ns0.getD i "" ++ "-" ++ ns0.getD reference ""),
          termname := tname ++ ":maineffect",
          func := some (mainEffectFunc tname keys reference) }
  else .error .indexError

/-- The `_intercept_fn` evaluator: `N.ones((1, nrow))`; a negative dimension
raises `ValueError`. -/
def interceptFn : Namespace → Int → Except PyErr NPArr :=
  fun _ nrow =>
    if nrow < 0 then .error .valueError
    else .ok (.i2 [List.replicate nrow.toNat 1])

/-- The module-level intercept term `I = Term('intercept', func=_intercept_fn)`. -/
def interceptI : Term :=
  { name := .str "intercept", termname := "intercept", func := some interceptFn }

/-- A `Formula` is an ordered list of terms.  The `_names`/`_termnames`
caches of the source are derived data and are modelled by the functions
`Formula.names` and `Formula.termnames`. -/
structure Formula where
  terms : List Term

/-- `Formula(term)`: wrap a single term. -/
def Formula.ofTerm (t : Term) : Formula := ⟨[t]⟩

/-- `Formula.termnames`: one label per term. -/
def Formula.termnames (f : Formula) : List String := f.terms.map Term.termname

/-- `Formula.names`: the flattened column labels across all terms. -/
def Formula.names (f : Formula) : List String := (f.terms.map Term.names).flatten

/-- The comparison `(self.name, self) <= (other.name, other)` used by the
sort in `Formula.__add__`: tuples compare by name first and, when the names
are equal, Python 2 falls back to comparing the term objects themselves by
object identity (modelled by `oid`). -/
def keyLe (s t : Term) : Bool :=
  if PyName.le s.name t.name then
    if PyName.le t.name s.name then decide (s.oid ≤ t.oid) else true
  else false

/-- Stable ordered insert for the term sort of `Formula.__add__`. -/
def insertTerm (t : Term) : List Term → List Term
  | [] => [t]
  | s :: ss => if keyLe t s then t :: s :: ss else s :: insertTerm t ss

/-- Python's `pieces.sort()` over `(name, term)` pairs (insertion sort; any
stable sort computes the same list). -/
def pySortTerms (l : List Term) : List Term := l.foldr insertTerm []

/-- `Formula.__add__`: concatenate the two term lists and sort them by the
terms' raw `name` attribute. -/
def Formula.add (f g : Formula) : Formula := ⟨pySortTerms (f.terms ++ g.terms)⟩

/-- `Term.__add__`: `Formula(other) + self`. -/
def Term.add (s other : Term) : Formula := Formula.add (Formula.ofTerm other) (Formula.ofTerm s)

/-- Remove the first term of the list carrying the given termname (the inner
scan-and-pop loop of `Formula.__sub__`). -/
def removeFirstByName (l : List Term) (tn : String) : List Term :=
  match l with
  | [] => []
  | t :: ts => if t.termname = tn then ts else t :: removeFirstByName ts tn

/-- `Formula.__sub__`: for each term of `other`, pop the first term of `self`
with a matching termname; termnames absent from `self` are silently ignored. -/
def Formula.sub (f g : Formula) : Formula :=
  ⟨g.terms.foldl (fun acc t => removeFirstByName acc t.termname) f.terms⟩

/-- Join both strings with `*`, split the result on `*`, sort the pieces and
rejoin: the canonical interaction label of `Formula.__mul__`. -/
def starSortJoin (a b : String) : String :=
  String.intercalate "*" (pySortStrings (a.splitOn "*" ++ b.splitOn "*"))

/-- The column labels of an interaction term: the pairwise sort-then-join of
the two operands' column labels. -/
def interactionNames (ti tj : Term) : List String :=
  ((ti.names).map fun r => (tj.names).map fun s => starSortJoin r s).flatten

/-- A 1-dimensional evaluation result is reshaped to a single row before the
pairwise products; indexing `shape[0]` of a 0-dimensional value raises. -/
def asRows : NPArr → Except PyErr (List (List Int))
  | .i2 rows => .ok rows
  | .i1 l => .ok [l]
  | .i0 _ => .error .indexError
  | _ => .error .typeError

/-- The evaluator closure of an interaction term built by `Formula.__mul__`:
every row of the first operand times every row of the second. -/
def interactionFunc (ti tj : Term) : Namespace → Int → Except PyErr NPArr :=
  fun ns nr => do
    let sv ← Term.call ti ns nr
    let srows ← asRows sv
    let ov ← Term.call tj ns nr
    let orows ← asRows ov
    let value ← srows.mapM fun r => orows.mapM fun s => broadcastOp (fun x y => x * y) r s
    .ok (.i2 value.flatten)

/-- The interaction term for one pair of non-intercept terms. -/
def interactionTerm (ti tj : Term) : Term :=
  { name := .strs (interactionNames ti tj),
    termname := starSortJoin ti.termname tj.termname,
    func := some (interactionFunc ti tj) }

/-- One pair of the Cartesian product in `Formula.__mul__`: a side whose
`name` is the intercept sentinel collapses to the other side's term. -/
def mulPair (ti tj : Term) : Term :=
  if ti.name = PyName.str "intercept" then tj
  else if tj.name = PyName.str "intercept" then ti
  else interactionTerm ti tj

/-- `Formula.__mul__`: the pairwise products of the two term lists, in the
nested loop order of the source. -/
def Formula.mul (f g : Formula) : Formula :=
  ⟨(f.terms.map fun ti => g.terms.map fun tj => mulPair ti tj).flatten⟩

/-- `Term.__mul__`: multiplying by the intercept returns the other operand
wrapped as a formula; otherwise `Formula(other) * self`. -/
def Term.mul (s other : Term) : Formula :=
  if other.name = PyName.str "intercept" then Formula.ofTerm s
  else if s.name = PyName.str "intercept" then Formula.ofTerm other
  else Formula.mul (Formula.ofTerm other) (Formula.ofTerm s)

/-- The value of `Formula.__call__`: an array, or — when a concatenation
failure is swallowed on the no-intercept path — the bare Python list of the
collected blocks. -/
inductive FormulaVal where
  | arr : NPArr → FormulaVal
  | pylist : List NPArr → FormulaVal
  deriving DecidableEq, Repr

/-- `val.shape = (1,) + val.shape`: prepend an axis of size one. -/
def addRowAxis : NPArr → Except PyErr NPArr
  | .i1 l => .ok (.i2 [l])
  | .s1 l => .ok (.s2 [l])
  | .i0 x => .ok (.i1 [x])
  | .s0 x => .ok (.s1 [x])
  | _ => .error .valueError

/-- A block usable by `N.concatenate` along axis 0 in a numeric design. -/
def asBlock : NPArr → Option (List (List Int))
  | .i2 rows => some rows
  | _ => none

/-- `N.concatenate(allvals)`: fails on an empty list, on non-2-D numeric
blocks, and on blocks of mismatched widths. -/
def concatRows (vals : List NPArr) : Except PyErr (List (List Int)) :=
  match vals with
  | [] => .error .valueError
  | _ =>
    match vals.mapM asBlock with
    | none => .error .valueError
    | some blocks =>
      let rows := blocks.flatten
      let w := (rows.headD []).length
      if rows.all fun r => r.length = w then .ok rows else .error .valueError

/-- `Formula.__call__(namespace, nrow=-1)`: evaluate every term (flagging the
intercept by its termname instead of collecting it), reshape 1-D results to
single rows, then assemble.  Without an intercept a concatenation failure is
swallowed and the collected list itself is returned; with an intercept a row
of ones is prepended, synthesised from `nrow` when no other term contributed
(raising `ValueError` when `nrow <= 1`). -/
def Formula.call (f : Formula) (ns : Namespace) (nrow : Int := -1) : Except PyErr FormulaVal := do
  let step : List NPArr × Bool → Term → Except PyErr (List NPArr × Bool) :=
    fun acc t => do
      let val ← Term.call t ns
      if t.termname = "intercept" then
        .ok (acc.1, true)
      else if val.ndim = 1 then do
        let v2 ← addRowAxis val
        .ok (acc.1 ++ [v2], acc.2)
      else
        .ok (acc.1 ++ [val], acc.2)
  let r ← f.terms.foldlM step ([], false)
  let allvals := r.1
  if r.2 = false then
    match concatRows allvals with
    | .ok rows => .ok (.arr (.i2 rows))
    | .error _ => .ok (.pylist allvals)
  else
    if allvals ≠ [] then do
      let rows ← concatRows allvals
      let n := (rows.headD []).length
      .ok (.arr (.i2 (List.replicate n (1 : Int) :: rows)))
    else if nrow ≤ 1 then .error .valueError
    else do
      let v ← Term.call interceptI ns nrow
      let v2 ← addRowAxis v
      .ok (.arr v2)

/-- `Formula.hasterm`: membership test by termname. -/
def Formula.hasterm (f : Formula) (t : Term) : Bool := f.termnames.contains t.termname

/-- Python's `list.index`: the index of the first occurrence, `ValueError`
when absent. -/
def listIndex (l : List String) (x : String) : Except PyErr Nat :=
  match l with
  | [] => .error .valueError
  | y :: ys => if y = x then .ok 0 else do
      let i ← listIndex ys x
      .ok (i + 1)

/-- Python dictionary assignment `d[k] = v`: overwrite in place, or append. -/
def dictInsert (d : List (String × Nat)) (k : String) (v : Nat) : List (String × Nat) :=
  if d.any fun p => p.1 = k then d.map fun p => if p.1 = k then (k, v) else p
  else d ++ [(k, v)]

/-- `Formula.termcolumns(term, dict=True)`: map each of the term's column
names to `self._names.index(name)`, the offset of that name's first
occurrence in the formula's flattened name list; `ValueError` when the term
is not in the formula.  (With `dict=False` the source returns the dictionary's
values in unspecified hash order, so the mapping form is the one modelled.) -/
def Formula.termcolumns (f : Formula) (t : Term) : Except PyErr (List (String × Nat)) :=
  if f.hasterm t then
    t.names.foldlM (fun d nm => do
      let i ← listIndex f.names nm
      pure (dictInsert d nm i)) []
  else .error .valueError

/-- The item `arr[0]` of an evaluated value, as used by `isnested`: the first
string of a string vector, or the first row of a matrix; a numeric scalar is
carried through so that the subsequent `len` can raise on it. -/
inductive Item where
  | strItem : String → Item
  | intItem : Int → Item
  | rowItem : List Int → Item
  | strRowItem : List String → Item
  deriving DecidableEq, Repr

/-- `arr[0]` (`IndexError` on an empty or 0-dimensional array). -/
def item0 : NPArr → Except PyErr Item
  | .s1 (x :: _) => .ok (.strItem x)
  | .i1 (x :: _) => .ok (.intItem x)
  | .i2 (r :: _) => .ok (.rowItem r)
  | .s2 (r :: _) => .ok (.strRowItem r)
  | _ => .error .indexError

/-- The body of `isnested` from the point where `a` and `b` are in hand:
count the distinct values of each, pair them up positionally, and compare the
distinct-pair count with the larger of the two. -/
def isnestedCore {α β : Type} [DecidableEq α] [DecidableEq β]
    (A B : Term) (a : List α) (b : List β) : Except PyErr (Bool × Option Term) :=
  if a.length ≠ b.length then .error .valueError
  else
    let nA := a.dedup.length
    let nB := b.dedup.length
    let n := max nA nB
    let nAB := (a.zip b).dedup.length
    if nAB = n then .ok (true, some (if nA > nB then A else B)) else .ok (false, none)

/-- `isnested(A, B, namespace)`: evaluate both factor-like terms in
`values=True` mode and take the element `[0]` of each result — the first
observation — before running the grouping comparison.  For string-valued
factors the comparison therefore runs over the characters of the two first
observations; `len` of a numeric scalar raises `TypeError`. -/
def isnested (A B : Term) (ns : Namespace) : Except PyErr (Bool × Option Term) := do
  let av ← Term.callValues A ns
  let bv ← Term.callValues B ns
  let a ← item0 av
  let b ← item0 bv
  match a, b with
  | .strItem sa, .strItem sb => isnestedCore A B sa.toList sb.toList
  | .rowItem ra, .rowItem rb => isnestedCore A B ra rb
  | .strRowItem ra, .strRowItem rb => isnestedCore A B ra rb
  | _, _ => .error .typeError

/-! Concrete fixtures used by the witnesses and counterexamples below. -/

/-- A plain user term named `x` with no attached evaluator. -/
def termX : Term := { name := .str "x", termname := "x" }

/-- A plain user term named `a`. -/
def termA0 : Term := { name := .str "a", termname := "a", oid := 1 }

/-- A plain user term named `b`. -/
def termB0 : Term := { name := .str "b", termname := "b", oid := 2 }

/-- A namespace binding `f` to the raw observations `["lo","hi","lo"]`. -/
def nsLoHi : Namespace := [("f", .s1 ["lo", "hi", "lo"])]

/-- A namespace binding `x` to a 3-by-2 numeric matrix. -/
def nsX2 : Namespace := [("x", .i2 [[1, 2], [3, 4], [5, 6]])]

/-- The factor `Factor('f', ['lo','hi'])`. -/
def facLoHi : Term := Factor.mk "f" ["lo", "hi"]

/-- A coarse factor with levels `ab`, `cd`. -/
def facA : Term := Factor.mk "A" ["ab", "cd"]

/-- A fine factor with levels `pp`, `qq`, `rr`, `ss`. -/
def facB : Term := Factor.mk "B" ["pp", "qq", "rr", "ss"]

/-- Observations under which `facB`'s four groups refine `facA`'s two groups. -/
def nsAB : Namespace :=
  [("A", .s1 ["ab", "ab", "cd", "cd"]), ("B", .s1 ["pp", "qq", "rr", "ss"])]

/-- The factor `Factor('g', ['a','b','c'])`. -/
def facG : Term := Factor.mk "g" ["a", "b", "c"]

/-- A namespace binding `g` to the raw observations `["a","b","a"]`. -/
def nsG : Namespace := [("g", .s1 ["a", "b", "a"])]

/-- The main-effect term of `facG` with the default reference. -/
def meG : Term := ((mainEffect "g" ["a", "b", "c"] none).toOption).getD termX

/-- Two terms sharing the column name `x` under different termnames, and the
formula holding both; the second term's column name shadows into the first. -/
def shadowT1 : Term := { name := .str "x", termname := "t1" }

/-- See `shadowT1`. -/
def shadowT2 : Term := { name := .str "x", termname := "t2", oid := 1 }

/-- The formula `[shadowT1, shadowT2]`. -/
def shadowF : Formula := ⟨[shadowT1, shadowT2]⟩

/-! Helper lemmas about the `Except` monad and the array model. -/

theorem ebind_ok {e α β : Type} (a : α) (f : α → Except e β) :
    (Except.ok a >>= f) = f a := rfl

theorem ebind_error {e α β : Type} (x : e) (f : α → Except e β) :
    ((Except.error x : Except e α) >>= f) = .error x := rfl

theorem epure {e α : Type} (a : α) : (pure a : Except e α) = .ok a := rfl

theorem squeeze1_i1_ne_i2 (l : List Int) (rows : List (List Int)) :
    squeeze1 (.i1 l) ≠ .i2 rows := by
  simp only [squeeze1]
  split <;> simp

theorem squeeze_i2 (rows : List (List Int)) (h1 : rows.length ≠ 1)
    (h2 : rows.all (fun r => r.length = 1) = false) :
    squeeze (.i2 rows) = .i2 rows := by
  simp [squeeze, h1, h2]

theorem squeeze_i2_inv (rs rows : List (List Int)) (h : squeeze (.i2 rs) = .i2 rows) :
    rows = rs := by
  by_cases h1 : rs.length = 1
  · exact absurd (by simpa [squeeze, h1] using h) (squeeze1_i1_ne_i2 _ _)
  · by_cases h2 : rs.all (fun r => r.length = 1)
    · exact absurd (by simpa [squeeze, h1, h2] using h) (squeeze1_i1_ne_i2 _ _)
    · have := (by simpa [squeeze, h1, h2] using h : NPArr.i2 rs = NPArr.i2 rows)
      cases this; rfl

theorem mapM_ok_of {e α β : Type} (l : List α) (f : α → Except e β) (g : α → β)
    (h : ∀ i ∈ l, f i = .ok (g i)) : l.mapM f = .ok (l.map g) := by
  induction l with
  | nil => rfl
  | cons a t ih =>
    rw [List.mapM_cons, h a (by simp), ebind_ok,
      ih (fun i hi => h i (List.mem_cons_of_mem _ hi)), ebind_ok]
    rfl

theorem mapM_ok_length {e α β : Type} (l : List α) (f : α → Except e β) (out : List β)
    (h : l.mapM f = .ok out) : out.length = l.length := by
  induction l generalizing out with
  | nil =>
    rw [List.mapM_nil, epure] at h
    cases h; rfl
  | cons a t ih =>
    rw [List.mapM_cons] at h
    cases hfa : f a with
    | error x => rw [hfa, ebind_error] at h; cases h
    | ok b =>
      rw [hfa, ebind_ok] at h
      cases hft : t.mapM f with
      | error x => rw [hft, ebind_error] at h; cases h
      | ok bs =>
        rw [hft, ebind_ok, epure] at h
        cases h
        simp [ih bs hft]

theorem length_indicatorRow (v : List String) (key : String) :
    (indicatorRow v key).length = v.length := by
  simp [indicatorRow]

/-! Lemmas about `getD`, `eraseIdx` and `range`. -/

theorem getD_map_of_lt {α β : Type} (f : α → β) (l : List α) (i : Nat) (d : α) (hd : β)
    (h : i < l.length) : (l.map f).getD i hd = f (l.getD i d) := by
  induction l generalizing i with
  | nil => simp at h
  | cons a t ih =>
    cases i with
    | zero => rfl
    | succ i => exact ih i (by simpa using h)

theorem eraseIdx_map {α β : Type} (f : α → β) (l : List α) (i : Nat) :
    (l.map f).eraseIdx i = (l.eraseIdx i).map f := by
  induction l generalizing i with
  | nil => simp
  | cons a t ih =>
    cases i with
    | zero => simp
    | succ i => simp [List.eraseIdx_cons_succ, ih]

theorem map_getD_range {α : Type} (l : List α) (d : α) :
    (List.range l.length).map (fun i => l.getD i d) = l := by
  induction l with
  | nil => rfl
  | cons a t ih =>
    rw [List.length_cons, List.range_succ_eq_map, List.map_cons, List.map_map]
    have : ((fun i => (a :: t).getD i d) ∘ Nat.succ) = fun i => t.getD i d := rfl
    rw [this, ih]
    rfl

theorem map_getD_range_eraseIdx {α : Type} (l : List α) (d : α) (r : Nat) :
    (((List.range l.length).eraseIdx r).map fun i => l.getD i d) = l.eraseIdx r := by
  induction l generalizing r with
  | nil => simp
  | cons a t ih =>
    rw [List.length_cons, List.range_succ_eq_map]
    cases r with
    | zero =>
      rw [List.eraseIdx_cons_zero, List.eraseIdx_cons_zero, List.map_map]
      have : ((fun i => (a :: t).getD i d) ∘ Nat.succ) = fun i => t.getD i d := rfl
      rw [this, map_getD_range]
    | succ r =>
      rw [List.eraseIdx_cons_succ, List.eraseIdx_cons_succ, List.map_cons]
      have hm : (List.map Nat.succ (List.range t.length)).eraseIdx r
          = List.map Nat.succ ((List.range t.length).eraseIdx r) := eraseIdx_map _ _ _
      rw [hm, List.map_map]
      have : ((fun i => (a :: t).getD i d) ∘ Nat.succ) = fun i => t.getD i d := rfl
      rw [this, ih]
      rfl

/-! Claim theorems. -/

/-- Claim C1: multiplying any non-intercept Term or Factor `A` by the
intercept `I`, in either order, returns `Formula(A)`: the intercept is
absorbed as the multiplicative identity and no interaction term is created,
both in `Term.__mul__` and at the pairwise level inside `Formula.__mul__`. -/
theorem C1_intercept_absorption (A : Term) (h : A.name ≠ PyName.str "intercept") :
    Term.mul A interceptI = Formula.ofTerm A ∧
    Term.mul interceptI A = Formula.ofTerm A ∧
    Formula.mul (Formula.ofTerm A) (Formula.ofTerm interceptI) = Formula.ofTerm A ∧
    Formula.mul (Formula.ofTerm interceptI) (Formula.ofTerm A) = Formula.ofTerm A := by
  refine ⟨?_, ?_, ?_, ?_⟩ <;>
    simp [Term.mul, Formula.mul, mulPair, interceptI, Formula.ofTerm, h]

/-- Witness for C1: the plain term `x` is absorbed against the intercept. -/
theorem C1_intercept_absorption_witness :
    Term.mul termX interceptI = Formula.ofTerm termX ∧
    Term.mul interceptI termX = Formula.ofTerm termX := by
  have h : termX.name ≠ PyName.str "intercept" := by decide
  exact ⟨(C1_intercept_absorption termX h).1, (C1_intercept_absorption termX h).2.1⟩

/-- Claim C5 (code bug): with `A` forming 2 groups, `B` forming 4 groups and
every `B`-group inside one `A`-group, `isnested(A, B)` does not return
`(True, B)`: the `[0]` indexing makes it compare the characters of the two
first observations (`"ab"` and `"pp"`), and it returns `(True, A)` here. -/
theorem C5_isnested_at_failing_input :
    (isnested facA facB nsAB).map (fun p => (p.1, p.2.map Term.termname)) =
      .ok (true, some "A") ∧ "A" ≠ "B" := by
  exact ⟨rfl, by decide⟩

/-- Claim C8 (code bug): constructing an ordinal Factor raises `NameError`
for the unbound `key` in the inner evaluator's default argument, so no
evaluation producing the row of sorted-key indices ever takes place. -/
theorem C8_ordinal_nameerror :
    Factor.mkOrdinal "f" ["a", "b"] = .error (.nameError "key") := rfl

/-- Evaluation of an intercept-only formula reduces to the `nrow` check and
the synthesised row of ones. -/
theorem interceptOnly_call (ns : Namespace) (n : Int) :
    Formula.call ⟨[interceptI]⟩ ns n =
      if n ≤ 1 then .error .valueError
      else (Term.call interceptI ns n) >>= fun v =>
        (addRowAxis v) >>= fun v2 => .ok (.arr v2) := rfl

/-- Claim C9: an intercept-only Formula evaluated with the row-count keyword
left at its default (`-1`) or at most 1 raises `ValueError`; with a usable
row count `n > 1` it produces the single all-ones row of width `n`. -/
theorem C9_intercept_only (ns : Namespace) (n : Int) :
    (n ≤ 1 → Formula.call ⟨[interceptI]⟩ ns n = .error .valueError) ∧
    (1 < n → Formula.call ⟨[interceptI]⟩ ns n =
      .ok (.arr (.i2 [List.replicate n.toNat 1]))) := by
  constructor
  · intro hn
    rw [interceptOnly_call, if_pos hn]
  · intro hn
    have h1 : ¬ n ≤ 1 := by omega
    rw [interceptOnly_call, if_neg h1]
    have h2 : Term.call interceptI ns n = .ok (.i1 (List.replicate n.toNat 1)) := by
      have hnn : ¬ n < 0 := by omega
      obtain ⟨m, hm⟩ : ∃ m, n.toNat = m + 2 := ⟨n.toNat - 2, by omega⟩
      show (do
        let v ← interceptFn ns n
        pure (squeeze v) : Except PyErr NPArr) = .ok (.i1 (List.replicate n.toNat 1))
      simp only [interceptFn, if_neg hnn, ebind_ok, hm, List.replicate_succ]
      rfl
    rw [h2, ebind_ok]
    rfl

/-- Witness for C9 at `nrow = 0` and `nrow = 5`. -/
theorem C9_intercept_only_witness :
    Formula.call ⟨[interceptI]⟩ [] 0 = .error .valueError ∧
    Formula.call ⟨[interceptI]⟩ [] 5 = .ok (.arr (.i2 [List.replicate (5 : Int).toNat 1])) :=
  ⟨(C9_intercept_only [] 0).1 (by decide), (C9_intercept_only [] 5).2 (by decide)⟩

/-- A matrix with at least two rows, all of length at least two, is left
unchanged by the squeeze. -/
theorem squeeze_i2_of_ge2 (rows : List (List Int)) (h1 : 2 ≤ rows.length)
    (h2 : ∀ r ∈ rows, 2 ≤ r.length) : squeeze (.i2 rows) = .i2 rows := by
  apply squeeze_i2
  · omega
  · apply Bool.eq_false_iff.mpr
    intro hcontra
    obtain ⟨r, hr⟩ : ∃ r, r ∈ rows := by
      cases rows with
      | nil => simp at h1
      | cons a l => exact ⟨a, by simp⟩
    have ha := List.all_eq_true.mp hcontra r hr
    have hb := h2 r hr
    simp at ha
    omega

/-- Evaluating a non-ordinal factor over string observations yields the full
indicator matrix whenever it has at least two levels and two observations
(so the squeeze leaves the matrix unchanged). -/
theorem factor_call_strs (tn : String) (keys : List String) (ns : Namespace)
    (v : List String) (nr : Int)
    (hlook : nsLookup ns tn = some (.s1 v))
    (hk : 2 ≤ (pySortedKeys keys).length) (hv : 2 ≤ v.length) :
    Term.call (Factor.mk tn keys) ns nr =
      .ok (.i2 ((pySortedKeys keys).map (indicatorRow v))) := by
  have hf : factorFunc tn (pySortedKeys keys) ns nr =
      .ok (.i2 ((pySortedKeys keys).map (indicatorRow v))) := by
    simp [factorFunc, hlook]
  have hsq : squeeze (.i2 ((pySortedKeys keys).map (indicatorRow v))) =
      .i2 ((pySortedKeys keys).map (indicatorRow v)) := by
    apply squeeze_i2_of_ge2
    · rw [List.length_map]; exact hk
    · intro r hr
      obtain ⟨key, _, hkey⟩ := List.mem_map.mp hr
      rw [← hkey, length_indicatorRow]
      exact hv
  simp only [Term.call, Factor.mk]
  rw [hf, ebind_ok]
  rw [show (pure (squeeze (.i2 ((pySortedKeys keys).map (indicatorRow v)))) : Except PyErr NPArr)
      = .ok (squeeze (.i2 ((pySortedKeys keys).map (indicatorRow v)))) from rfl, hsq]

/-- Claim C7: a non-ordinal Factor over keys `lo`, `hi` and source values
`["lo","hi","lo"]` produces the 2-by-3 indicator matrix whose `(f==lo)` row
is `[1,0,1]` and whose `(f==hi)` row is `[0,1,0]`; in general it produces one
indicator row per sorted key (1 where the source value equals the key, else
0) and its composite name is the list of labels `(termname==key)`. -/
theorem C7_factor_encoding (tn : String) (keys : List String) (ns : Namespace)
    (v : List String)
    (hlook : nsLookup ns tn = some (.s1 v))
    (hk : 2 ≤ (pySortedKeys keys).length) (hv : 2 ≤ v.length) :
    Term.call (Factor.mk tn keys) ns =
      .ok (.i2 ((pySortedKeys keys).map (indicatorRow v))) ∧
    (Factor.mk tn keys).names = factorLabels tn (pySortedKeys keys) ∧
    Term.call facLoHi nsLoHi = .ok (.i2 [[0, 1, 0], [1, 0, 1]]) ∧
    facLoHi.names = ["(f==hi)", "(f==lo)"] :=
  ⟨factor_call_strs tn keys ns v 1 hlook hk hv,
   by simp [Factor.mk, Term.names], rfl, rfl⟩

/-- Witness for C7 at the three-level factor `g` over `["a","b","a"]`. -/
theorem C7_factor_encoding_witness :
    Term.call (Factor.mk "g" ["a", "b", "c"]) nsG =
      .ok (.i2 ((pySortedKeys ["a", "b", "c"]).map (indicatorRow ["a", "b", "a"]))) ∧
    (Factor.mk "g" ["a", "b", "c"]).names = factorLabels "g" (pySortedKeys ["a", "b", "c"]) :=
  ⟨(C7_factor_encoding "g" ["a", "b", "c"] nsG ["a", "b", "a"] rfl (by decide) (by decide)).1,
   (C7_factor_encoding "g" ["a", "b", "c"] nsG ["a", "b", "a"] rfl (by decide) (by decide)).2.1⟩

/-- Claim C3 (counterexample): on the Factor with keys `lo`, `hi` over
`["lo","hi","lo"]`, `main_effect(reference=0)` produces `[1,-1,1]` — the
`(f==lo)` row minus the `(f==hi)` row, because `hi` comes first in sorted key
order — and not `[-1,1,-1]` as claimed. -/
theorem C3_maineffect_counterexample :
    ((mainEffect "f" ["lo", "hi"] none).bind fun t0 => Term.call t0 nsLoHi) =
      .ok (.i1 [1, -1, 1]) ∧
    NPArr.i1 [1, -1, 1] ≠ NPArr.i1 [-1, 1, -1] :=
  ⟨rfl, by decide⟩

/-- Claim C3 as amended: `main_effect` defaults its reference to index 0 of
the sorted key list and produces `k-1` rows, each a non-reference indicator
row minus the reference row; on the `lo`/`hi` factor over `["lo","hi","lo"]`
the single row is the `(f==lo)` row minus the `(f==hi)` row, `[1,-1,1]`. -/
theorem C3_maineffect_amended (tn : String) (keys : List String) (ns : Namespace)
    (v : List String) (ref : Nat) (t : Term)
    (hlook : nsLookup ns tn = some (.s1 v))
    (hk : 3 ≤ (pySortedKeys keys).length) (hv : 2 ≤ v.length)
    (hme : mainEffect tn keys (some ref) = .ok t) :
    Term.call t ns =
      .ok (.i2 (((pySortedKeys keys).eraseIdx ref).map fun key =>
        List.zipWith (fun x y => x - y) (indicatorRow v key)
          (indicatorRow v ((pySortedKeys keys).getD ref "")))) ∧
    t.names.length = (pySortedKeys keys).length - 1 ∧
    mainEffect tn keys none = mainEffect tn keys (some 0) ∧
    ((mainEffect "f" ["lo", "hi"] none).bind fun t0 => Term.call t0 nsLoHi) =
      .ok (.i1 [1, -1, 1]) := by
  have hnames : (Factor.mk tn keys).names = factorLabels tn (pySortedKeys keys) := by
    simp [Factor.mk, Term.names]
  have hnlen : (Factor.mk tn keys).names.length = (pySortedKeys keys).length := by
    rw [hnames]; simp [factorLabels]
  simp only [mainEffect, Option.getD_some] at hme
  split at hme
  case isFalse => exact Except.noConfusion hme
  case isTrue href =>
    rw [hnlen] at href
    injection hme with ht
    subst ht
    have hfac : Term.call (Factor.mk tn keys) ns 1 =
        .ok (.i2 ((pySortedKeys keys).map (indicatorRow v))) :=
      factor_call_strs tn keys ns v 1 hlook (by omega) hv
    have hreflt : ref < ((pySortedKeys keys).map (indicatorRow v)).length := by
      rw [List.length_map]; exact href
    have hrefrow : ((pySortedKeys keys).map (indicatorRow v)).getD ref [] =
        indicatorRow v ((pySortedKeys keys).getD ref "") :=
      getD_map_of_lt _ _ _ "" _ href
    have hmapm : (((List.range ((pySortedKeys keys).map (indicatorRow v)).length).eraseIdx
        ref).mapM fun i => broadcastOp (fun x y => x - y)
          (((pySortedKeys keys).map (indicatorRow v)).getD i [])
          (((pySortedKeys keys).map (indicatorRow v)).getD ref [])) =
        .ok ((((List.range ((pySortedKeys keys).map (indicatorRow v)).length).eraseIdx
          ref)).map fun i =>
            List.zipWith (fun x y => x - y)
              (((pySortedKeys keys).map (indicatorRow v)).getD i [])
              (((pySortedKeys keys).map (indicatorRow v)).getD ref [])) := by
      apply mapM_ok_of
      intro i hi
      have hilt : i < ((pySortedKeys keys).map (indicatorRow v)).length :=
        List.mem_range.mp ((List.eraseIdx_sublist _ _).mem hi)
      have hirow : ((pySortedKeys keys).map (indicatorRow v)).getD i [] =
          indicatorRow v ((pySortedKeys keys).getD i "") :=
        getD_map_of_lt _ _ _ "" _ (by rw [List.length_map] at hilt; exact hilt)
      rw [broadcastOp, if_pos]
      rw [hirow, hrefrow, length_indicatorRow, length_indicatorRow]
    have htrans : ((((List.range ((pySortedKeys keys).map (indicatorRow v)).length).eraseIdx
        ref)).map fun i =>
          List.zipWith (fun x y => x - y)
            (((pySortedKeys keys).map (indicatorRow v)).getD i [])
            (((pySortedKeys keys).map (indicatorRow v)).getD ref [])) =
        ((pySortedKeys keys).eraseIdx ref).map fun key =>
          List.zipWith (fun x y => x - y) (indicatorRow v key)
            (indicatorRow v ((pySortedKeys keys).getD ref "")) := by
      rw [hrefrow]
      have h2 := map_getD_range_eraseIdx ((pySortedKeys keys).map (indicatorRow v)) [] ref
      calc (((List.range ((pySortedKeys keys).map (indicatorRow v)).length).eraseIdx
          ref)).map (fun i =>
            List.zipWith (fun x y => x - y)
              (((pySortedKeys keys).map (indicatorRow v)).getD i [])
              (indicatorRow v ((pySortedKeys keys).getD ref "")))
          = ((((List.range ((pySortedKeys keys).map (indicatorRow v)).length).eraseIdx
              ref)).map fun i => ((pySortedKeys keys).map (indicatorRow v)).getD i []).map
                (fun r => List.zipWith (fun x y => x - y) r
                  (indicatorRow v ((pySortedKeys keys).getD ref ""))) := by
            rw [List.map_map]; rfl
        _ = (((pySortedKeys keys).map (indicatorRow v)).eraseIdx ref).map
              (fun r => List.zipWith (fun x y => x - y) r
                (indicatorRow v ((pySortedKeys keys).getD ref ""))) := by rw [h2]
        _ = (((pySortedKeys keys).eraseIdx ref).map (indicatorRow v)).map
              (fun r => List.zipWith (fun x y => x - y) r
                (indicatorRow v ((pySortedKeys keys).getD ref ""))) := by
            rw [eraseIdx_map]
        _ = ((pySortedKeys keys).eraseIdx ref).map (fun key =>
              List.zipWith (fun x y => x - y) (indicatorRow v key)
                (indicatorRow v ((pySortedKeys keys).getD ref ""))) := by
            rw [List.map_map]; rfl
    have hout : mainEffectFunc tn keys ref ns 1 =
        .ok (.i2 (((pySortedKeys keys).eraseIdx ref).map fun key =>
          List.zipWith (fun x y => x - y) (indicatorRow v key)
            (indicatorRow v ((pySortedKeys keys).getD ref "")))) := by
      simp only [mainEffectFunc]
      rw [hfac, ebind_ok]
      simp only [if_pos hreflt]
      rw [hmapm, ebind_ok, htrans]
    have hsq : squeeze (.i2 (((pySortedKeys keys).eraseIdx ref).map fun key =>
        List.zipWith (fun x y => x - y) (indicatorRow v key)
          (indicatorRow v ((pySortedKeys keys).getD ref "")))) =
        .i2 (((pySortedKeys keys).eraseIdx ref).map fun key =>
          List.zipWith (fun x y => x - y) (indicatorRow v key)
            (indicatorRow v ((pySortedKeys keys).getD ref ""))) := by
      apply squeeze_i2_of_ge2
      · rw [List.length_map, List.length_eraseIdx, if_pos href]
        omega
      · intro r hr
        obtain ⟨key, _, hkey⟩ := List.mem_map.mp hr
        rw [← hkey, List.length_zipWith, length_indicatorRow, length_indicatorRow]
        omega
    refine ⟨?_, ?_, rfl, rfl⟩
    · simp only [Term.call]
      rw [hout, ebind_ok]
      rw [show (pure (squeeze (.i2 (((pySortedKeys keys).eraseIdx ref).map fun key =>
          List.zipWith (fun x y => x - y) (indicatorRow v key)
            (indicatorRow v ((pySortedKeys keys).getD ref "")))))
          : Except PyErr NPArr)
        = .ok (squeeze (.i2 (((pySortedKeys keys).eraseIdx ref).map fun key =>
          List.zipWith (fun x y => x - y) (indicatorRow v key)
            (indicatorRow v ((pySortedKeys keys).getD ref ""))))) from rfl, hsq]
    · rw [hnames]
      simp [Term.names, factorLabels, List.length_eraseIdx, href]

/-- Witness for C3 (amended) at the three-level factor `g`. -/
theorem C3_maineffect_amended_witness :
    Term.call meG nsG =
      .ok (.i2 (((pySortedKeys ["a", "b", "c"]).eraseIdx 0).map fun key =>
        List.zipWith (fun x y => x - y) (indicatorRow ["a", "b", "a"] key)
          (indicatorRow ["a", "b", "a"] ((pySortedKeys ["a", "b", "c"]).getD 0 "")))) ∧
    meG.names.length = (pySortedKeys ["a", "b", "c"]).length - 1 := by
  have h := C3_maineffect_amended "g" ["a", "b", "c"] nsG ["a", "b", "a"] 0 meG rfl
    (by decide) (by decide) rfl
  exact ⟨h.1, h.2.1⟩

/-- Whatever the namespace holds, a non-ordinal factor that evaluates to a
2-D array produces exactly one row per sorted key. -/
theorem factor_call_rows_length (tn : String) (keys : List String) (ns : Namespace)
    (nr : Int) (rows : List (List Int))
    (h : Term.call (Factor.mk tn keys) ns nr = .ok (.i2 rows)) :
    rows.length = (pySortedKeys keys).length := by
  simp only [Term.call, Factor.mk, factorFunc] at h
  cases hl : nsLookup ns tn with
  | none => rw [hl] at h; simp [ebind_error] at h
  | some w =>
    rw [hl] at h
    cases w with
    | i0 x => simp [pyLen, ebind_error] at h
    | s0 x => simp [pyLen, ebind_error] at h
    | s1 v =>
      simp only [ebind_ok] at h
      rw [epure] at h
      have h2 : squeeze (.i2 ((pySortedKeys keys).map (indicatorRow v))) = .i2 rows := by
        simpa using h
      rw [squeeze_i2_inv _ _ h2]
      simp
    | i1 v =>
      simp only [pyLen, ebind_ok] at h
      rw [epure] at h
      have h2 : squeeze (.i2 ((pySortedKeys keys).map
          fun _ => List.replicate v.length (0 : Int))) = .i2 rows := by
        simpa using h
      rw [squeeze_i2_inv _ _ h2]
      simp
    | i2 m =>
      simp only [pyLen, ebind_ok] at h
      rw [epure] at h
      have h2 : squeeze (.i2 ((pySortedKeys keys).map
          fun _ => List.replicate m.length (0 : Int))) = .i2 rows := by
        simpa using h
      rw [squeeze_i2_inv _ _ h2]
      simp
    | s2 m =>
      simp only [pyLen, ebind_ok] at h
      rw [epure] at h
      have h2 : squeeze (.i2 ((pySortedKeys keys).map
          fun _ => List.replicate m.length (0 : Int))) = .i2 rows := by
        simpa using h
      rw [squeeze_i2_inv _ _ h2]
      simp

/-- Claim C6 (counterexample): a plain Term whose namespace entry is a
3-by-2 matrix evaluates to a 2-D array with 3 rows while `names()` has
length 1, so `len(t.names()) == t().shape[0]` fails for arbitrary Terms. -/
theorem C6_names_shape_counterexample :
    Term.call termX nsX2 = .ok (.i2 [[1, 2], [3, 4], [5, 6]]) ∧
    termX.names.length = 1 ∧
    ([[1, 2], [3, 4], [5, 6]] : List (List Int)).length = 3 ∧ (3 : Nat) ≠ 1 :=
  ⟨rfl, rfl, rfl, by decide⟩

/-- Claim C6 as amended: for the Terms the library itself constructs — a
non-ordinal Factor encoding and a main-effect term — an evaluation that
produces a 2-D array has exactly `len(names())` rows. -/
theorem C6_names_shape_amended (tn : String) (keys : List String) (ns : Namespace)
    (r? : Option Nat) (t : Term) (rows rows2 : List (List Int))
    (hf : Term.call (Factor.mk tn keys) ns = .ok (.i2 rows))
    (hme : mainEffect tn keys r? = .ok t)
    (hm : Term.call t ns = .ok (.i2 rows2)) :
    (Factor.mk tn keys).names.length = rows.length ∧ t.names.length = rows2.length := by
  have hnames : (Factor.mk tn keys).names = factorLabels tn (pySortedKeys keys) := by
    simp [Factor.mk, Term.names]
  have hnlen : (Factor.mk tn keys).names.length = (pySortedKeys keys).length := by
    rw [hnames]; simp [factorLabels]
  have hrows : rows.length = (pySortedKeys keys).length :=
    factor_call_rows_length tn keys ns 1 rows hf
  refine ⟨by omega, ?_⟩
  simp only [mainEffect] at hme
  split at hme
  case isFalse => exact Except.noConfusion hme
  case isTrue href =>
    injection hme with ht
    subst ht
    simp only [Term.call] at hm
    simp only [mainEffectFunc] at hm
    rw [hf, ebind_ok] at hm
    have hlt : r?.getD 0 < rows.length := by
      rw [hnlen] at href; omega
    simp only [if_pos hlt] at hm
    cases hmm : ((List.range rows.length).eraseIdx (r?.getD 0)).mapM
        (fun i => broadcastOp (fun x y => x - y) (rows.getD i [])
          (rows.getD (r?.getD 0) [])) with
    | error x => rw [hmm, ebind_error, ebind_error] at hm; exact Except.noConfusion hm
    | ok rvalue =>
      rw [hmm, ebind_ok, ebind_ok, epure] at hm
      have h2 : squeeze (.i2 rvalue) = .i2 rows2 := by simpa using hm
      have h3 := squeeze_i2_inv _ _ h2
      have h4 := mapM_ok_length _ _ _ hmm
      have h5 : rvalue.length = rows.length - 1 := by
        rw [h4, List.length_eraseIdx, List.length_range, if_pos hlt]
      rw [hnames]
      rw [hnlen] at href
      simp [Term.names, factorLabels, List.length_eraseIdx, href, h3, h5]
      omega

/-- Witness for C6 (amended) at the three-level factor `g` and its main
effect. -/
theorem C6_names_shape_amended_witness :
    (Factor.mk "g" ["a", "b", "c"]).names.length =
      ([[1, 0, 1], [0, 1, 0], [0, 0, 0]] : List (List Int)).length ∧
    meG.names.length = ([[-1, 1, -1], [-1, 0, -1]] : List (List Int)).length :=
  C6_names_shape_amended "g" ["a", "b", "c"] nsG none meG
    [[1, 0, 1], [0, 1, 0], [0, 0, 0]] [[-1, 1, -1], [-1, 0, -1]] rfl rfl rfl

/-! Lemmas for `Formula.termcolumns`. -/

theorem listIndex_of_mem (l : List String) (x : String) (h : x ∈ l) :
    listIndex l x = .ok (l.indexOf x) := by
  induction l with
  | nil => simp at h
  | cons y ys ih =>
    by_cases hxy : y = x
    · subst hxy
      simp [listIndex, List.indexOf_cons]
    · have hx : x ∈ ys := by
        rcases List.mem_cons.mp h with h1 | h1
        · exact absurd h1.symm hxy
        · exact h1
      have hne : ¬ ((y == x) = true) := by simp [hxy]
      simp only [listIndex, if_neg hxy, ih hx, ebind_ok, List.indexOf_cons,
        cond_eq_if, if_neg hne]

theorem lookup_overwriteMap (ps : List (String × Nat)) (k kk : String) (v : Nat)
    (h : kk ≠ k) :
    (ps.map fun q => if q.1 = k then (k, v) else q).lookup kk = ps.lookup kk := by
  induction ps with
  | nil => rfl
  | cons q qs ih =>
    obtain ⟨a, b⟩ := q
    by_cases hq : a = k
    · subst hq
      have h1 : (if ((a, b) : String × Nat).1 = a then (a, v) else (a, b)) = (a, v) := by simp
      rw [List.map_cons, h1]
      have h2 : (kk == a) = false := by simp [h]
      simp [List.lookup, h2, ih]
    · have h1 : (if ((a, b) : String × Nat).1 = k then (k, v) else (a, b)) = (a, b) := by
        simp [hq]
      rw [List.map_cons, h1]
      by_cases hka : kk = a
      · subst hka
        simp [List.lookup]
      · have h2 : (kk == a) = false := by simp [hka]
        simp [List.lookup, h2, ih]

theorem lookup_dictInsert_self (d : List (String × Nat)) (k : String) (v : Nat) :
    (dictInsert d k v).lookup k = some v := by
  induction d with
  | nil => simp [dictInsert, List.lookup]
  | cons p ps ih =>
    obtain ⟨a, b⟩ := p
    by_cases hpk : a = k
    · subst hpk
      simp [dictInsert, List.lookup]
    · have hd : dictInsert ((a, b) :: ps) k v = (a, b) :: dictInsert ps k v := by
        by_cases hany : ps.any (fun q => q.1 = k)
        · simp [dictInsert, hpk, hany]
        · simp [dictInsert, hpk, hany]
      rw [hd]
      have hka : (k == a) = false := by
        simp only [beq_eq_false_iff_ne, ne_eq]
        exact fun hh => hpk hh.symm
      simp [List.lookup, hka, ih]

theorem lookup_append_single (d : List (String × Nat)) (k kk : String) (v : Nat)
    (hkk : (kk == k) = false) :
    (d ++ [(k, v)]).lookup kk = d.lookup kk := by
  induction d with
  | nil => simp [List.lookup, hkk]
  | cons p ps ih =>
    obtain ⟨a, b⟩ := p
    by_cases hka : kk = a
    · subst hka
      simp [List.lookup]
    · have hka2 : (kk == a) = false := by simp [hka]
      simp [List.lookup, hka2, ih]

theorem lookup_dictInsert_ne (d : List (String × Nat)) (k kk : String) (v : Nat)
    (h : kk ≠ k) :
    (dictInsert d k v).lookup kk = d.lookup kk := by
  by_cases hany : d.any (fun q => q.1 = k)
  · simp only [dictInsert, if_pos hany]
    exact lookup_overwriteMap d k kk v h
  · simp only [dictInsert, if_neg hany]
    exact lookup_append_single d k kk v (by simp [h])

theorem foldl_dict_spec (names : List String) (full : List String)
    (hsub : ∀ nm ∈ names, nm ∈ full) (d : List (String × Nat)) :
    ∃ dd, (names.foldlM (fun d nm => do
        let i ← listIndex full nm
        pure (dictInsert d nm i)) d) = .ok dd ∧
      (∀ nm ∈ names, dd.lookup nm = some (full.indexOf nm)) ∧
      (∀ nm, nm ∉ names → dd.lookup nm = d.lookup nm) := by
  induction names generalizing d with
  | nil => exact ⟨d, rfl, by simp, fun _ _ => rfl⟩
  | cons nm rest ih =>
    have hmem := hsub nm (by simp)
    obtain ⟨dd, hdd, hall, hpres⟩ :=
      ih (fun x hx => hsub x (by simp [hx])) (dictInsert d nm (full.indexOf nm))
    refine ⟨dd, ?_, ?_, ?_⟩
    · rw [List.foldlM_cons, listIndex_of_mem full nm hmem, ebind_ok, epure, ebind_ok]
      exact hdd
    · intro x hx
      rcases List.mem_cons.mp hx with h1 | h1
      · subst h1
        by_cases hxr : x ∈ rest
        · exact hall x hxr
        · rw [hpres x hxr, lookup_dictInsert_self]
      · exact hall x h1
    · intro x hx
      have hx1 : x ≠ nm := fun hh => hx (by simp [hh])
      have hx2 : x ∉ rest := fun hh => hx (by simp [hh])
      rw [hpres x hx2, lookup_dictInsert_ne _ _ _ _ hx1]

/-- Claim C10: for a term present in a Formula, `termcolumns` resolves each
of the term's column names to the offset of that name's first occurrence in
the formula's flattened `names()` list; in particular, when the queried
term's column name also appears in an earlier term, the offset points at the
earlier term's column (the concrete `shadowF` instance maps `x` to 0, the
first term's column). -/
theorem C10_termcolumns_first_occurrence (f : Formula) (t : Term) (nm : String)
    (ht : t ∈ f.terms) (hnm : nm ∈ t.names) :
    (f.termcolumns t).map (fun d => d.lookup nm) = .ok (some (f.names.indexOf nm)) ∧
    shadowF.termcolumns shadowT2 = .ok [("x", 0)] := by
  have hhas : f.hasterm t = true := by
    simp only [Formula.hasterm, Formula.termnames]
    exact List.elem_eq_true_of_mem (List.mem_map.mpr ⟨t, ht, rfl⟩)
  have hsub : ∀ x ∈ t.names, x ∈ f.names := by
    intro x hx
    simp only [Formula.names, List.mem_flatten]
    exact ⟨t.names, List.mem_map.mpr ⟨t, ht, rfl⟩, hx⟩
  obtain ⟨dd, hdd, hall, _⟩ := foldl_dict_spec t.names f.names hsub []
  constructor
  · simp only [Formula.termcolumns, if_pos hhas, hdd]
    simp [Except.map, hall nm hnm]
  · rfl

/-- Witness for C10 at the shadowed-name instance. -/
theorem C10_termcolumns_first_occurrence_witness :
    (shadowF.termcolumns shadowT2).map (fun d => d.lookup "x") =
      .ok (some (shadowF.names.indexOf "x")) :=
  (C10_termcolumns_first_occurrence shadowF shadowT2 "x"
    (List.mem_cons_of_mem _ (List.mem_cons_self _ _))
    (by simp [shadowT2, Term.names])).1

/-! Lemmas for `Formula.__sub__`. -/

theorem removeFirstByName_of_nodup (l : List Term) (tn : String)
    (h : (l.map Term.termname).Nodup) :
    removeFirstByName l tn = l.filter fun t => !(t.termname == tn) := by
  induction l with
  | nil => rfl
  | cons t ts ih =>
    rw [List.map_cons, List.nodup_cons] at h
    by_cases htn : t.termname = tn
    · have hall : ∀ s ∈ ts, (!(s.termname == tn)) = true := by
        intro s hs
        have hsn : s.termname ≠ tn := by
          intro hh
          exact h.1 (List.mem_map.mpr ⟨s, hs, hh.trans htn.symm⟩)
        simp [hsn]
      show (if t.termname = tn then ts else t :: removeFirstByName ts tn)
          = List.filter (fun s => !(s.termname == tn)) (t :: ts)
      rw [if_pos htn, List.filter_cons]
      have hb : (!(t.termname == tn)) = false := by simp [htn]
      rw [hb]
      simp only [Bool.false_eq_true, if_false]
      exact (List.filter_eq_self.mpr hall).symm
    · show (if t.termname = tn then ts else t :: removeFirstByName ts tn)
          = List.filter (fun s => !(s.termname == tn)) (t :: ts)
      rw [if_neg htn, List.filter_cons]
      have hb : (!(t.termname == tn)) = true := by simp [htn]
      rw [hb, if_pos rfl, ih h.2]

theorem sub_terms_filter (f g : Formula) (h : f.termnames.Nodup) :
    (Formula.sub f g).terms = f.terms.filter fun t => !(g.termnames.contains t.termname) := by
  suffices haux : ∀ (gl l : List Term), (l.map Term.termname).Nodup →
      gl.foldl (fun acc t => removeFirstByName acc t.termname) l
        = l.filter (fun t => !((gl.map Term.termname).contains t.termname)) by
    exact haux g.terms f.terms h
  intro gl
  induction gl with
  | nil =>
    intro l hl
    rw [List.foldl_nil]
    symm
    rw [List.filter_eq_self]
    intro s hs
    rfl
  | cons gt gts ih =>
    intro l hl
    rw [List.foldl_cons, removeFirstByName_of_nodup l gt.termname hl]
    have hl2 : ((l.filter fun t => !(t.termname == gt.termname)).map Term.termname).Nodup :=
      (List.Sublist.map Term.termname (List.filter_sublist l)).nodup hl
    rw [ih _ hl2, List.filter_filter]
    congr 1
    funext t
    simp only [List.map_cons, List.contains_cons]
    cases hEq : (t.termname == gt.termname) <;>
      cases hC : ((gts.map Term.termname).contains t.termname) <;> rfl

/-- Claim C4: Formula subtraction removes from the left operand every term
whose termname occurs in the right operand (for a left operand satisfying
the documented unique-termnames invariant), silently ignores termnames not
present in the left operand, and `(A + B) - B = Formula(A)` for terms with
distinct termnames. -/
theorem C4_sub_removes_matches (f g : Formula) (A B : Term)
    (h : f.termnames.Nodup) (hAB : A.termname ≠ B.termname) :
    (Formula.sub f g).terms = f.terms.filter (fun t => !(g.termnames.contains t.termname)) ∧
    Formula.sub (Term.add A B) (Formula.ofTerm B) = Formula.ofTerm A := by
  refine ⟨sub_terms_filter f g h, ?_⟩
  show Formula.sub ⟨pySortTerms ([B] ++ [A])⟩ (Formula.ofTerm B) = Formula.ofTerm A
  by_cases hk : keyLe B A = true
  · simp [pySortTerms, insertTerm, hk, Formula.sub, Formula.ofTerm, removeFirstByName]
  · simp [pySortTerms, insertTerm, hk, Formula.sub, Formula.ofTerm, removeFirstByName, hAB]

/-- Witness for C4 at the two plain terms `a` and `b`. -/
theorem C4_sub_removes_matches_witness :
    (Formula.sub ⟨[termA0, termB0]⟩ ⟨[termB0]⟩).terms =
      ([termA0, termB0].filter fun t =>
        !((Formula.termnames ⟨[termB0]⟩).contains t.termname)) ∧
    Formula.sub (Term.add termA0 termB0) (Formula.ofTerm termB0) = Formula.ofTerm termA0 :=
  C4_sub_removes_matches ⟨[termA0, termB0]⟩ ⟨[termB0]⟩ termA0 termB0 (by decide) (by decide)

/-! Order lemmas for the comparison used by the sort in `Formula.__add__`. -/

theorem charListLe_cons_iff (x y : Char) (xs ys : List Char) :
    charListLe (x :: xs) (y :: ys) = true ↔
      (x.toNat < y.toNat ∨ (x.toNat = y.toNat ∧ charListLe xs ys = true)) := by
  by_cases h1 : x.toNat < y.toNat
  · simp [charListLe, h1]
  · by_cases h2 : y.toNat < x.toNat
    · have h3 : ¬ x.toNat = y.toNat := by omega
      simp [charListLe, h1, h2, h3]
    · have h3 : x.toNat = y.toNat := by omega
      simp [charListLe, h1, h2, h3]

theorem charListLe_total : ∀ (a b : List Char),
    charListLe a b = true ∨ charListLe b a = true := by
  intro a
  induction a with
  | nil => intro b; left; rfl
  | cons x xs ih =>
    intro b
    cases b with
    | nil => right; rfl
    | cons y ys =>
      rcases Nat.lt_trichotomy x.toNat y.toNat with h | h | h
      · left; rw [charListLe_cons_iff]; exact Or.inl h
      · rcases ih ys with h2 | h2
        · left; rw [charListLe_cons_iff]; exact Or.inr ⟨h, h2⟩
        · right; rw [charListLe_cons_iff]; exact Or.inr ⟨h.symm, h2⟩
      · right; rw [charListLe_cons_iff]; exact Or.inl h

theorem charListLe_trans : ∀ (a b c : List Char), charListLe a b = true →
    charListLe b c = true → charListLe a c = true := by
  intro a
  induction a with
  | nil => intro b c _ _; rfl
  | cons x xs ih =>
    intro b c hab hbc
    cases b with
    | nil => exact absurd hab (by simp [charListLe])
    | cons y ys =>
      cases c with
      | nil => exact absurd hbc (by simp [charListLe])
      | cons z zs =>
        rw [charListLe_cons_iff] at hab hbc ⊢
        rcases hab with h1 | ⟨h1, h1r⟩ <;> rcases hbc with h2 | ⟨h2, h2r⟩
        · exact Or.inl (by omega)
        · exact Or.inl (by omega)
        · exact Or.inl (by omega)
        · exact Or.inr ⟨by omega, ih ys zs h1r h2r⟩

theorem charListLe_antisymm : ∀ (a b : List Char), charListLe a b = true →
    charListLe b a = true → a = b := by
  intro a
  induction a with
  | nil =>
    intro b _ hba
    cases b with
    | nil => rfl
    | cons y ys => exact absurd hba (by simp [charListLe])
  | cons x xs ih =>
    intro b hab hba
    cases b with
    | nil => exact absurd hab (by simp [charListLe])
    | cons y ys =>
      rw [charListLe_cons_iff] at hab hba
      have hxy : x.toNat = y.toNat := by
        rcases hab with h1 | ⟨h1, _⟩ <;> rcases hba with h2 | ⟨h2, _⟩ <;> omega
      have hx : x = y := Char.eq_of_val_eq (UInt32.ext hxy)
      subst hx
      have hr1 : charListLe xs ys = true := by
        rcases hab with h1 | ⟨_, h⟩
        · omega
        · exact h
      have hr2 : charListLe ys xs = true := by
        rcases hba with h1 | ⟨_, h⟩
        · omega
        · exact h
      rw [ih ys hr1 hr2]

theorem string_toList_inj (a b : String) (h : a.toList = b.toList) : a = b := by
  cases a; cases b
  simp only [String.toList] at h
  exact congrArg String.mk h

theorem pyStrLe_total (a b : String) : pyStrLe a b = true ∨ pyStrLe b a = true :=
  charListLe_total a.toList b.toList

theorem pyStrLe_trans (a b c : String) (h1 : pyStrLe a b = true)
    (h2 : pyStrLe b c = true) : pyStrLe a c = true :=
  charListLe_trans _ _ _ h1 h2

theorem pyStrLe_antisymm (a b : String) (h1 : pyStrLe a b = true)
    (h2 : pyStrLe b a = true) : a = b :=
  string_toList_inj a b (charListLe_antisymm _ _ h1 h2)

theorem strListLe_total : ∀ (a b : List String),
    strListLe a b = true ∨ strListLe b a = true := by
  intro a
  induction a with
  | nil => intro b; left; rfl
  | cons x xs ih =>
    intro b
    cases b with
    | nil => right; rfl
    | cons y ys =>
      by_cases hxy : x = y
      · subst hxy
        rcases ih ys with h | h
        · left; simp [strListLe, h]
        · right; simp [strListLe, h]
      · have hyx : ¬ y = x := fun hh => hxy hh.symm
        rcases pyStrLe_total x y with h | h
        · left; simp [strListLe, hxy, h]
        · right; simp [strListLe, hyx, h]

theorem strListLe_trans : ∀ (a b c : List String), strListLe a b = true →
    strListLe b c = true → strListLe a c = true := by
  intro a
  induction a with
  | nil => intro b c _ _; rfl
  | cons x xs ih =>
    intro b c hab hbc
    cases b with
    | nil => exact absurd hab (by simp [strListLe])
    | cons y ys =>
      cases c with
      | nil => exact absurd hbc (by simp [strListLe])
      | cons z zs =>
        by_cases hxy : x = y
        · subst hxy
          by_cases hyz : x = z
          · subst hyz
            simp only [strListLe, if_pos rfl] at hab hbc ⊢
            exact ih ys zs hab hbc
          · simp only [strListLe, if_pos rfl] at hab
            simp only [strListLe, if_neg hyz] at hbc ⊢
            exact hbc
        · by_cases hyz : y = z
          · subst hyz
            simp only [strListLe, if_neg hxy] at hab ⊢
            exact hab
          · simp only [strListLe, if_neg hxy] at hab
            simp only [strListLe, if_neg hyz] at hbc
            have hxz : ¬ x = z := by
              intro hh
              apply hxy
              rw [← hh] at hbc
              exact pyStrLe_antisymm x y hab hbc
            simp only [strListLe, if_neg hxz]
            exact pyStrLe_trans x y z hab hbc

theorem strListLe_antisymm : ∀ (a b : List String), strListLe a b = true →
    strListLe b a = true → a = b := by
  intro a
  induction a with
  | nil =>
    intro b _ hba
    cases b with
    | nil => rfl
    | cons y ys => exact absurd hba (by simp [strListLe])
  | cons x xs ih =>
    intro b hab hba
    cases b with
    | nil => exact absurd hab (by simp [strListLe])
    | cons y ys =>
      by_cases hxy : x = y
      · subst hxy
        simp only [strListLe, if_pos rfl] at hab hba
        rw [ih ys hab hba]
      · have hyx : ¬ y = x := fun hh => hxy hh.symm
        simp only [strListLe, if_neg hxy] at hab
        simp only [strListLe, if_neg hyx] at hba
        exact absurd (pyStrLe_antisymm x y hab hba) hxy

theorem pyNameLe_total (a b : PyName) : PyName.le a b = true ∨ PyName.le b a = true := by
  cases a with
  | str s =>
    cases b with
    | str t => simpa [PyName.le] using pyStrLe_total s t
    | strs t => right; rfl
  | strs s =>
    cases b with
    | str t => left; rfl
    | strs t => simpa [PyName.le] using strListLe_total s t

theorem pyNameLe_trans (a b c : PyName) (h1 : PyName.le a b = true)
    (h2 : PyName.le b c = true) : PyName.le a c = true := by
  cases a with
  | str s =>
    cases b with
    | str t =>
      cases c with
      | str u => exact pyStrLe_trans s t u h1 h2
      | strs u => exact absurd h2 (by simp [PyName.le])
    | strs t => exact absurd h1 (by simp [PyName.le])
  | strs s =>
    cases b with
    | str t =>
      cases c with
      | str u => rfl
      | strs u => exact absurd h2 (by simp [PyName.le])
    | strs t =>
      cases c with
      | str u => rfl
      | strs u => exact strListLe_trans s t u h1 h2

theorem pyNameLe_antisymm (a b : PyName) (h1 : PyName.le a b = true)
    (h2 : PyName.le b a = true) : a = b := by
  cases a with
  | str s =>
    cases b with
    | str t => exact congrArg PyName.str (pyStrLe_antisymm s t h1 h2)
    | strs t => exact absurd h1 (by simp [PyName.le])
  | strs s =>
    cases b with
    | str t => exact absurd h2 (by simp [PyName.le])
    | strs t => exact congrArg PyName.strs (strListLe_antisymm s t h1 h2)

theorem keyLe_iff (s t : Term) : keyLe s t = true ↔
    (PyName.le s.name t.name = true ∧
      (PyName.le t.name s.name = true → s.oid ≤ t.oid)) := by
  by_cases h1 : PyName.le s.name t.name = true
  · by_cases h2 : PyName.le t.name s.name = true
    · simp [keyLe, h1, h2]
    · simp [keyLe, h1, h2]
  · simp [keyLe, h1]

theorem keyLe_total (s t : Term) : keyLe s t = true ∨ keyLe t s = true := by
  by_cases h1 : PyName.le s.name t.name = true
  · by_cases h2 : PyName.le t.name s.name = true
    · rcases Nat.le_total s.oid t.oid with h3 | h3
      · left; rw [keyLe_iff]; exact ⟨h1, fun _ => h3⟩
      · right; rw [keyLe_iff]; exact ⟨h2, fun _ => h3⟩
    · left; rw [keyLe_iff]; exact ⟨h1, fun hh => absurd hh h2⟩
  · have h2 : PyName.le t.name s.name = true :=
      (pyNameLe_total s.name t.name).resolve_left h1
    right; rw [keyLe_iff]; exact ⟨h2, fun hh => absurd hh h1⟩

theorem keyLe_trans (s t u : Term) (h1 : keyLe s t = true) (h2 : keyLe t u = true) :
    keyLe s u = true := by
  rw [keyLe_iff] at h1 h2 ⊢
  refine ⟨pyNameLe_trans _ _ _ h1.1 h2.1, ?_⟩
  intro hus
  have hts : PyName.le t.name s.name = true := pyNameLe_trans _ _ _ h2.1 hus
  have hut : PyName.le u.name t.name = true := pyNameLe_trans _ _ _ hus h1.1
  exact Nat.le_trans (h1.2 hts) (h2.2 hut)

/-! Lemmas about the insertion sort on terms. -/

theorem insertTerm_perm (t : Term) (l : List Term) : (insertTerm t l).Perm (t :: l) := by
  induction l with
  | nil => exact List.Perm.refl _
  | cons s ss ih =>
    by_cases h : keyLe t s = true
    · simp only [insertTerm, if_pos h]
      exact List.Perm.refl _
    · simp only [insertTerm, if_neg h]
      exact (ih.cons s).trans (List.Perm.swap t s ss)

theorem pySortTerms_perm (l : List Term) : (pySortTerms l).Perm l := by
  induction l with
  | nil => exact List.Perm.refl _
  | cons t ts ih => exact (insertTerm_perm t (pySortTerms ts)).trans (ih.cons t)

theorem insertTerm_pairwise (t : Term) (l : List Term)
    (h : l.Pairwise fun a b => keyLe a b = true) :
    (insertTerm t l).Pairwise fun a b => keyLe a b = true := by
  induction l with
  | nil => simp [insertTerm]
  | cons s ss ih =>
    rcases List.pairwise_cons.mp h with ⟨hs, hss⟩
    by_cases hk : keyLe t s = true
    · simp only [insertTerm, if_pos hk]
      refine List.pairwise_cons.mpr ⟨?_, h⟩
      intro b hb
      rcases List.mem_cons.mp hb with hb | hb
      · rw [hb]; exact hk
      · exact keyLe_trans t s b hk (hs b hb)
    · simp only [insertTerm, if_neg hk]
      refine List.pairwise_cons.mpr ⟨?_, ih hss⟩
      intro b hb
      rcases List.mem_cons.mp ((insertTerm_perm t ss).mem_iff.mp hb) with hb2 | hb2
      · rw [hb2]; exact (keyLe_total t s).resolve_left hk
      · exact hs b hb2

theorem pySortTerms_pairwise (l : List Term) :
    (pySortTerms l).Pairwise fun a b => keyLe a b = true := by
  induction l with
  | nil => simp [pySortTerms]
  | cons t ts ih => exact insertTerm_pairwise t (pySortTerms ts) ih

/-- Two sorted lists that are permutations of each other and whose elements
are distinguished by the (pre)order are equal. -/
theorem eq_of_perm_of_pairwise {α : Type} {r : α → α → Prop} :
    ∀ {l₁ l₂ : List α}, l₁.Perm l₂ → l₁.Pairwise r → l₂.Pairwise r →
      (∀ a ∈ l₁, ∀ b ∈ l₁, r a b → r b a → a = b) → l₁ = l₂ := by
  intro l₁
  induction l₁ with
  | nil =>
    intro l₂ hp _ _ _
    rw [hp.symm.eq_nil]
  | cons a t₁ ih =>
    intro l₂ hp hs₁ hs₂ hanti
    cases l₂ with
    | nil => exact absurd hp.eq_nil (by simp)
    | cons b t₂ =>
      have hab : a = b := by
        by_cases h : a = b
        · exact h
        · have ha2 : a ∈ b :: t₂ := hp.subset (by simp)
          have hb1 : b ∈ a :: t₁ := hp.symm.subset (by simp)
          have ha2' : a ∈ t₂ := by
            rcases List.mem_cons.mp ha2 with h1 | h1
            · exact absurd h1 h
            · exact h1
          have hb1' : b ∈ t₁ := by
            rcases List.mem_cons.mp hb1 with h1 | h1
            · exact absurd h1.symm h
            · exact h1
          have hrab : r a b := (List.pairwise_cons.mp hs₁).1 b hb1'
          have hrba : r b a := (List.pairwise_cons.mp hs₂).1 a ha2'
          exact hanti a (by simp) b (by simp [hb1']) hrab hrba
      subst hab
      have hp2 := hp.cons_inv
      have ht := ih hp2 hs₁.of_cons hs₂.of_cons
        (fun x hx y hy hr1 hr2 => hanti x (by simp [hx]) y (by simp [hy]) hr1 hr2)
      rw [ht]

/-- Claim C2: Formula addition concatenates the two operands' term lists and
sorts them by the terms' raw `name` attribute (Python breaks name ties by
object identity, modelled by `oid`), so addition is commutative up to term
ordering: `(A + B).termnames() == (B + A).termnames()` whenever distinct
terms carry distinct `(name, oid)` sort keys — as distinct Python objects
always do. -/
theorem C2_add_commutes (A B : Formula)
    (h : ∀ s ∈ A.terms ++ B.terms, ∀ t ∈ A.terms ++ B.terms,
      keyLe s t = true → keyLe t s = true → s = t) :
    (Formula.add A B).terms.Perm (A.terms ++ B.terms) ∧
    (Formula.add A B).terms.Pairwise (fun s t => keyLe s t = true) ∧
    (Formula.add A B).termnames = (Formula.add B A).termnames := by
  have hperm1 : (Formula.add A B).terms.Perm (A.terms ++ B.terms) := pySortTerms_perm _
  have hperm2 : (Formula.add B A).terms.Perm (B.terms ++ A.terms) := pySortTerms_perm _
  refine ⟨hperm1, pySortTerms_pairwise _, ?_⟩
  have hp : (Formula.add A B).terms.Perm ((Formula.add B A).terms) :=
    hperm1.trans (List.perm_append_comm.trans hperm2.symm)
  have heq : (Formula.add A B).terms = (Formula.add B A).terms := by
    apply eq_of_perm_of_pairwise hp (pySortTerms_pairwise _) (pySortTerms_pairwise _)
    intro a ha b hb h1 h2
    exact h a (hperm1.subset ha) b (hperm1.subset hb) h1 h2
  simp [Formula.termnames, heq]

/-- Witness for C2 at two plain terms with distinct names. -/
theorem C2_add_commutes_witness :
    (Formula.add ⟨[termX]⟩ ⟨[termA0]⟩).termnames =
      (Formula.add ⟨[termA0]⟩ ⟨[termX]⟩).termnames := by
  have h : ∀ s ∈ ([termX] ++ [termA0] : List Term), ∀ t ∈ ([termX] ++ [termA0] : List Term),
      keyLe s t = true → keyLe t s = true → s = t := by
    intro s hs t ht h1 h2
    simp at hs ht
    rcases hs with rfl | rfl <;> rcases ht with rfl | rfl
    · rfl
    · exact absurd h1 (by decide)
    · exact absurd h2 (by decide)
    · rfl
  exact (C2_add_commutes ⟨[termX]⟩ ⟨[termA0]⟩ h).2.2

end FormulaPy
